import Mathlib

/-!
# Verification of the image-parameterization module (captum/optim/param/images.py)

Shallow embedding of the module's data model and operations.

Tensors are modelled by `NTensor`: an explicit shape (a list of dimension
sizes, mirroring `tensor.shape`) together with a total valuation of
multi-indices.  Machine floats are modelled by real numbers, so every value
is finite by construction; "raises" is modelled by `Option.none`.
-/

open scoped BigOperators

noncomputable section

/-- A shaped real tensor: `shape` mirrors the runtime `.shape` list and
`data` assigns a real value to every multi-index (indices outside the shape
are irrelevant). -/
structure NTensor where
  shape : List ℕ
  data : List ℕ → ℝ

/-- Source `logit`: clamp the input to `[epsilon, 1 - epsilon]`
(via `torch.clamp`, i.e. `min (max p epsilon) (1 - epsilon)`) and return
`log (p / (1 - p))` of the clamped value.  Modelled elementwise. -/
def logit (p : ℝ) (epsilon : ℝ) : ℝ :=
  let q := min (max p epsilon) (1 - epsilon)
  Real.log (q / (1 - q))

namespace ToRGB

/-- The raw KLT matrix literal from `ToRGB.klt_transform` before
normalization: `[[0.26, 0.09, 0.02], [0.27, 0.00, -0.05], [0.27, -0.09, 0.03]]`. -/
def kltRaw : Matrix (Fin 3) (Fin 3) ℝ :=
  !![26/100, 9/100, 2/100; 27/100, 0, -5/100; 27/100, -9/100, 3/100]

/-- Model of `np.linalg.norm(transform, axis=0)`: the L2 norm of column `j`. -/
def kltColumnNorm (j : Fin 3) : ℝ :=
  Real.sqrt (∑ i : Fin 3, kltRaw i j ^ 2)

/-- Model of `np.max(np.linalg.norm(transform, axis=0))`: the largest column norm. -/
def kltNorm : ℝ :=
  max (kltColumnNorm 0) (max (kltColumnNorm 1) (kltColumnNorm 2))

/-- Source `ToRGB.klt_transform`: the raw matrix divided (entrywise) by the largest
column norm. -/
def klt_transform : Matrix (Fin 3) (Fin 3) ℝ :=
  fun i j => kltRaw i j / kltNorm

/-- Source `ToRGB.i1i2i3_transform`: the fixed I1I2I3 matrix. -/
def i1i2i3_transform : Matrix (Fin 3) (Fin 3) ℝ :=
  !![1/3, 1/3, 1/3; 1/2, 0, -1/2; -1/4, 1/2, -1/4]

/-- Source `ToRGB.__init__`: select the transform by name, raising `ValueError`
(modelled as `none`) on an unrecognized name. -/
def mkTransform (transform_name : String) : Option (Matrix (Fin 3) (Fin 3) ℝ) :=
  if transform_name = "klt" then some klt_transform
  else if transform_name = "i1i2i3" then some i1i2i3_transform
  else none

/-- Source `ToRGB.forward`: asserts the input is rank 3 (C, H, W); when C = 4 the
fourth (alpha) channel is split off and concatenated back unchanged; the
remaining channels are multiplied along the channel axis by the transform
(or its transpose when `inverse`), which is a shape error (`none`) unless
exactly 3 channels remain. -/
def forward (T : Matrix (Fin 3) (Fin 3) ℝ) (inverse : Bool) (x : NTensor) :
    Option NTensor :=
  match x.shape with
  | [c, h, w] =>
    -- `has_alpha = x.size("C") == 4`; after the alpha split the matmul
    -- `transform @ flat` needs exactly 3 rows in `flat`.
    let hasAlpha := c = 4
    let cEff := if hasAlpha then 3 else c
    if cEff = 3 then
      let M := if inverse then T.transpose else T
      some { shape := [c, h, w],
             data := fun idx =>
               match idx with
               | i :: a :: b :: _ =>
                 if hi : i < 3 then
                   ∑ k : Fin 3, M ⟨i, hi⟩ k * x.data [(k : ℕ), a, b]
                 else x.data idx
               | _ => 0 }
    else none
  | _ => none

end ToRGB

/-- Model of `np.fft.fftfreq(n)` at index `i`: `i / n` for `i ≤ (n - 1) / 2`, else
`(i - n) / n`. -/
def fftfreq (n : ℕ) (i : ℕ) : ℝ :=
  if i ≤ (n - 1) / 2 then (i : ℝ) / n else ((i : ℝ) - n) / n

/-- How many column frequencies `FFTImage.rfft2d_freqs` keeps: `w // 2 + 2`
on odd widths ("on odd input dimensions we need to keep one additional
frequency"), `w // 2 + 1` otherwise. -/
def rfft2dAdd (width : ℕ) : ℕ := if width % 2 = 1 then 2 else 1

/-- Number of columns of the frequency grid: the slice
`np.fft.fftfreq(width)[: width // 2 + add]` keeps `width // 2 + add`
entries, clipped to the `width` entries the array has (numpy slices
never extend past the end — at width 1 only 1 column remains). -/
def rfft2dCols (width : ℕ) : ℕ := min width (width / 2 + rfft2dAdd width)

namespace FFTImage

/-- Source `FFTImage.rfft2d_freqs`: the (height × (width // 2 + add)) grid of 2D
spectrum frequency magnitudes `sqrt (f_x * f_x + f_y * f_y)`. -/
def rfft2d_freqs (height width : ℕ) : NTensor :=
  { shape := [height, rfft2dCols width],
    data := fun idx =>
      match idx with
      | [i, j] =>
        Real.sqrt (fftfreq width j * fftfreq width j +
          fftfreq height i * fftfreq height i)
      | _ => 0 }

/-- The spectrum scale buffer built in `FFTImage.__init__`:
`scale = 1.0 / np.maximum(frequencies, 1.0 / max(*size))`, then
`scale *= np.sqrt(size[0] * size[1])`, finally reshaped by
`scale[None, :, :, None]` to rank 4. -/
def spectrum_scale (height width : ℕ) : NTensor :=
  { shape := [1, height, rfft2dCols width, 1],
    data := fun idx =>
      match idx with
      | [_, i, j, _] =>
        1 / max ((rfft2d_freqs height width).data [i, j])
            (1 / (max height width : ℝ)) * Real.sqrt (height * width)
      | _ => 0 }

end FFTImage

/-- The state of an `FFTImage` parameterization: its construction size and
the two stored tensors (`fourier_coeffs`, `spectrum_scale`). -/
structure FFTImageState where
  size : ℕ × ℕ
  fourier_coeffs : NTensor
  spectrum_scale : NTensor

namespace FFTImage

/-- Source `FFTImage.__init__`: `fourier_coeffs` is a random tensor of shape
`(channels, h, w // 2 + 1, 2)` divided by 50 (the randomness is the `randn`
oracle argument), and `spectrum_scale` is the scale buffer for the size. -/
def mk (size : ℕ × ℕ) (channels : ℕ) (randn : List ℕ → ℝ) : FFTImageState :=
  { size := size,
    fourier_coeffs :=
      { shape := [channels, size.1, size.2 / 2 + 1, 2],
        data := fun idx => randn idx / 50 },
    spectrum_scale := spectrum_scale size.1 size.2 }

end FFTImage

/-- Broadcast combination of one axis: torch semantics — the sizes must be
equal or one of them must be 1; the result is the larger. -/
def bcDim (a b : ℕ) : Option ℕ :=
  if a = b then some a else if a = 1 then some b else if b = 1 then some a else none

/-- Index into an operand along one axis under broadcasting: an axis of
size 1 is always read at index 0. -/
def bcIndex (dim i : ℕ) : ℕ := if dim = 1 then 0 else i

/-- Elementwise binary operation on two rank-4 tensors with torch
broadcasting; `none` on a shape mismatch (any other ranks are a shape error
for the uses in this module). -/
def broadcastOp (op : ℝ → ℝ → ℝ) (x y : NTensor) : Option NTensor :=
  match x.shape, y.shape with
  | [a0, a1, a2, a3], [b0, b1, b2, b3] =>
    match bcDim a0 b0, bcDim a1 b1, bcDim a2 b2, bcDim a3 b3 with
    | some c0, some c1, some c2, some c3 =>
      some { shape := [c0, c1, c2, c3],
             data := fun idx =>
               match idx with
               | [i0, i1, i2, i3] =>
                 op (x.data [bcIndex a0 i0, bcIndex a1 i1, bcIndex a2 i2,
                       bcIndex a3 i3])
                    (y.data [bcIndex b0 i0, bcIndex b1 i1, bcIndex b2 i2,
                       bcIndex b3 i3])
               | _ => 0 }
    | _, _, _, _ => none
  | _, _ => none

/-- Model of `torch.rfft(x, signal_ndim=2)` on a rank-3 input `(C, H, W)`: the
one-sided 2D DFT, shape `(C, H, W // 2 + 1, 2)` with last dimension the
real and imaginary parts `sum x cos` and `- sum x sin`. -/
def torchRfft2 (x : NTensor) : Option NTensor :=
  match x.shape with
  | [c, h, w] =>
    some { shape := [c, h, w / 2 + 1, 2],
           data := fun idx =>
             match idx with
             | [ci, ky, kx, r] =>
               if r = 0 then
                 ∑ m : Fin h, ∑ n : Fin w,
                   x.data [ci, m, n] *
                     Real.cos (2 * Real.pi * (ky * m / h + kx * n / w))
               else if r = 1 then
                 -∑ m : Fin h, ∑ n : Fin w,
                   x.data [ci, m, n] *
                     Real.sin (2 * Real.pi * (ky * m / h + kx * n / w))
               else 0
             | _ => 0 }
  | _ => none

/-- Model of `torch.irfft(x, signal_ndim=2)` (onesided, no `signal_sizes`): input
`(C, H, Wc, 2)`, output `(C, H, 2 * (Wc - 1))`, the inverse 2D DFT of the
Hermitian extension of the half spectrum, normalized by the full size. -/
def torchIrfft2 (x : NTensor) : Option NTensor :=
  match x.shape with
  | [c, h, wc, 2] =>
    let w := 2 * (wc - 1)
    let re : ℕ → ℕ → ℕ → ℝ := fun ci ky kx =>
      if kx < wc then x.data [ci, ky, kx, 0]
      else x.data [ci, (h - ky) % h, w - kx, 0]
    let im : ℕ → ℕ → ℕ → ℝ := fun ci ky kx =>
      if kx < wc then x.data [ci, ky, kx, 1]
      else -x.data [ci, (h - ky) % h, w - kx, 1]
    some { shape := [c, h, w],
           data := fun idx =>
             match idx with
             | [ci, m, n] =>
               (1 / (h * w : ℝ)) * ∑ ky : Fin h, ∑ kx : Fin w,
                 (re ci ky kx * Real.cos (2 * Real.pi * (ky * m / h + kx * n / w)) -
                  im ci ky kx * Real.sin (2 * Real.pi * (ky * m / h + kx * n / w)))
             | _ => 0 }
  | _ => none

/-- The slice `t[:, :h, :w]` on a rank-3 tensor: shape is clipped, values
are unchanged. -/
def cropHW (t : NTensor) (h w : ℕ) : Option NTensor :=
  match t.shape with
  | [c, ht, wt] => some { shape := [c, min ht h, min wt w], data := t.data }
  | _ => none

namespace FFTImage

/-- Source `FFTImage.forward`: multiply the coefficients elementwise by the
spectrum scale (with broadcasting), apply the inverse real 2D FFT, and crop
to `(h, w)`. -/
def forward (s : FFTImageState) : Option NTensor :=
  (broadcastOp (fun a b => a * b) s.fourier_coeffs s.spectrum_scale).bind
    fun scaled => (torchIrfft2 scaled).bind
      fun out => cropHW out s.size.1 s.size.2

/-- Source `FFTImage.set_image`: `coeffs = torch.rfft(correlated_image, 2)` and
`fourier_coeffs = coeffs / spectrum_scale` — the old coefficients are
discarded. -/
def set_image (s : FFTImageState) (correlated_image : NTensor) :
    Option FFTImageState :=
  (torchRfft2 correlated_image).bind fun coeffs =>
    (broadcastOp (fun a b => a / b) coeffs s.spectrum_scale).map fun q =>
      { s with fourier_coeffs := q }

end FFTImage

namespace PixelImage

/-- Source `PixelImage.__init__`: with no `init` both `size` and `channels` must be
present (`assert`) and the stored image is `randn([channels, h, w]) / 10 + 0.5`;
with an `init` tensor its leading dimension must be 3 (`assert`). Failed
asserts are modelled as `none`; the result is the stored `image`. -/
def mk (size : Option (ℕ × ℕ)) (channels : Option ℕ) (init : Option NTensor)
    (randn : List ℕ → ℝ) : Option NTensor :=
  match init with
  | none =>
    match size, channels with
    | some (h, w), some c =>
      some { shape := [c, h, w], data := fun idx => randn idx / 10 + 1/2 }
    | _, _ => none
  | some t => if t.shape.headD 0 = 3 then some t else none

/-- Source `PixelImage.forward`: return the stored image unchanged. -/
def forward (image : NTensor) : NTensor := image

end PixelImage

/-! ## Theorems for the claims -/

/-- C5: `logit` clamps its input to `[epsilon, 1 - epsilon]` before
inverting the sigmoid rather than raising: `logit 0` and `logit 1` agree
with `logit epsilon` and `logit (1 - epsilon)` respectively, and in both
cases the logarithm is taken of a strictly positive real — the
real-number rendering of "finite, no infinity or NaN". -/
theorem logit_boundary_clamp (ε : ℝ) (h0 : 0 < ε) (h1 : ε < 1/2) :
    logit 0 ε = logit ε ε ∧ logit 1 ε = logit (1 - ε) ε ∧
    logit 0 ε = Real.log (ε / (1 - ε)) ∧
    logit 1 ε = Real.log ((1 - ε) / ε) ∧
    0 < ε / (1 - ε) ∧ 0 < (1 - ε) / ε := by
  have hε1 : ε ≤ 1 - ε := by linarith
  have hmax0 : max (0:ℝ) ε = ε := max_eq_right h0.le
  have hmaxε : max ε ε = ε := max_self ε
  have hmax1 : max (1:ℝ) ε = 1 := max_eq_left (by linarith)
  have hmax1e : max (1 - ε) ε = 1 - ε := max_eq_left hε1
  have hq0 : min ε (1 - ε) = ε := min_eq_left hε1
  have hq1 : min (1:ℝ) (1 - ε) = 1 - ε := min_eq_right (by linarith)
  have hcompl : (1:ℝ) - (1 - ε) = ε := by ring
  refine ⟨?_, ?_, ?_, ?_, ?_, ?_⟩
  · simp only [logit, hmax0, hmaxε]
  · simp only [logit, hmax1, hmax1e, hq1, min_self]
  · simp only [logit, hmax0, hq0]
  · simp only [logit, hmax1, hq1, hcompl]
  · exact div_pos h0 (by linarith)
  · exact div_pos (by linarith) h0

/-- Witness for C5 at the source's default `epsilon = 1e-6`. -/
theorem logit_boundary_clamp_witness :
    logit 0 (1/1000000) = logit (1/1000000) (1/1000000) ∧
    logit 1 (1/1000000) = logit (1 - 1/1000000) (1/1000000) ∧
    logit 0 (1/1000000) = Real.log ((1/1000000) / (1 - 1/1000000)) ∧
    logit 1 (1/1000000) = Real.log ((1 - 1/1000000) / (1/1000000)) ∧
    0 < (1/1000000 : ℝ) / (1 - 1/1000000) ∧
    0 < (1 - 1/1000000 : ℝ) / (1/1000000) :=
  logit_boundary_clamp (1/1000000) (by norm_num) (by norm_num)

/-- C9: `ToRGB.forward` asserts `x.dim() == 3`: on any input whose rank is
not exactly 3 the call fails (no transform is applied). -/
theorem toRGB_rank_check (T : Matrix (Fin 3) (Fin 3) ℝ) (inv : Bool)
    (x : NTensor) (h : x.shape.length ≠ 3) :
    ToRGB.forward T inv x = none := by
  obtain ⟨sh, d⟩ := x
  rcases sh with _ | ⟨a, _ | ⟨b, _ | ⟨c, _ | ⟨e, tl⟩⟩⟩⟩
  · rfl
  · rfl
  · rfl
  · exact absurd rfl h
  · rfl

/-- Witness for C9 on a concrete rank-4 (batched) tensor. -/
theorem toRGB_rank_check_witness :
    ToRGB.forward 1 false ⟨[1, 3, 2, 2], fun _ => 0⟩ = none :=
  toRGB_rank_check 1 false ⟨[1, 3, 2, 2], fun _ => 0⟩ (by decide)

/-- C10: `PixelImage.__init__` without an `init` image requires both `size`
and `channels` (the assert fails — `none` — when either is absent), and
with both present stores an image of shape `(channels, height, width)`. -/
theorem pixelImage_mk_requires_size_channels (h w c : ℕ) (randn : List ℕ → ℝ) :
    (∃ t, PixelImage.mk (some (h, w)) (some c) none randn = some t ∧
      t.shape = [c, h, w]) ∧
    PixelImage.mk none (some c) none randn = none ∧
    PixelImage.mk (some (h, w)) none none randn = none ∧
    PixelImage.mk none none none randn = none :=
  ⟨⟨_, rfl, rfl⟩, rfl, rfl, rfl⟩

/-- C2, counterexample: at size `(2, 3)` the stored spectrum scale has
shape `(1, 2, 3, 1)`, not the claimed `(1, height, width / 2 + 1, 1) =
(1, 2, 2, 1)` — on odd widths one extra frequency column is kept. -/
theorem spectrum_scale_shape_cex :
    (FFTImage.mk (2, 3) 3 (fun _ => 0)).spectrum_scale.shape ≠ [1, 2, 2, 1] := by
  decide

/-- C2, amended: the spectrum scale stored at construction has shape
`(1, height, width / 2 + 1, 1)` when `width` is even or equal to 1 (the
frequency slice is clipped to the single entry of `fftfreq(1)`), and
`(1, height, width / 2 + 2, 1)` when `width` is odd and at least 3. -/
theorem spectrum_scale_shape (size : ℕ × ℕ) (channels : ℕ)
    (randn : List ℕ → ℝ) (hh : 0 < size.1) (hw : 0 < size.2) :
    (FFTImage.mk size channels randn).spectrum_scale.shape =
      if size.2 % 2 = 0 ∨ size.2 = 1 then [1, size.1, size.2 / 2 + 1, 1]
      else [1, size.1, size.2 / 2 + 2, 1] := by
  obtain ⟨h, w⟩ := size
  have hw' : 0 < w := hw
  simp only [FFTImage.mk, FFTImage.spectrum_scale, rfft2dCols, rfft2dAdd]
  rcases Nat.mod_two_eq_zero_or_one w with hp | hp
  · have ha : (if w % 2 = 1 then 2 else 1) = 1 := by simp [hp]
    have hmin : min w (w / 2 + 1) = w / 2 + 1 := by omega
    rw [ha, hmin, if_pos (Or.inl hp)]
  · by_cases h1 : w = 1
    · subst h1
      norm_num
    · have ha : (if w % 2 = 1 then 2 else 1) = 2 := by simp [hp]
      have hmin : min w (w / 2 + 2) = w / 2 + 2 := by omega
      rw [ha, hmin, if_neg (by omega)]

/-- Witness for C2's amended statement at size `(2, 3)`. -/
theorem spectrum_scale_shape_witness :
    (FFTImage.mk (2, 3) 3 (fun _ => 0)).spectrum_scale.shape =
      if 3 % 2 = 0 ∨ 3 = 1 then [1, 2, 3 / 2 + 1, 1]
      else [1, 2, 3 / 2 + 2, 1] :=
  spectrum_scale_shape (2, 3) 3 (fun _ => 0) (by norm_num) (by norm_num)

/-- C4: the code slip — on an odd width the stored `fourier_coeffs` have
`width / 2 + 1` frequency columns but `spectrum_scale` has `width / 2 + 2`,
so the elementwise product in `FFTImage.forward` cannot broadcast and
`forward` raises instead of returning a `(channels, H, W)` tensor.
Evaluation at the failing input `size = (2, 3), channels = 3`. -/
theorem fftImage_forward_odd_width_fails :
    FFTImage.forward (FFTImage.mk (2, 3) 3 (fun _ => 0)) = none ∧
    ∃ t, FFTImage.forward (FFTImage.mk (2, 2) 3 (fun _ => 0)) = some t ∧
      t.shape = [3, 2, 2] :=
  ⟨rfl, _, rfl, rfl⟩

/-- C7: on a rank-3 input, `ToRGB.forward` succeeds exactly when the
channel count after removing the alpha channel (when the input has 4
channels) is 3, and fails with a shape error otherwise. -/
theorem toRGB_channel_contract (T : Matrix (Fin 3) (Fin 3) ℝ) (inv : Bool)
    (c h w : ℕ) (d : List ℕ → ℝ) :
    ToRGB.forward T inv ⟨[c, h, w], d⟩ ≠ none ↔
      (if c = 4 then 3 else c) = 3 := by
  simp only [ToRGB.forward]
  split_ifs <;> simp_all

/-- C6: on a 4-channel input, `ToRGB.forward` in both modes returns the
4th (alpha) plane identically (same values at every spatial index), and
transforms only the first 3 channels (by the matrix, or its transpose in
inverse mode). -/
theorem toRGB_alpha_passthrough (T : Matrix (Fin 3) (Fin 3) ℝ) (inv : Bool)
    (h w : ℕ) (d : List ℕ → ℝ) :
    ∃ y, ToRGB.forward T inv ⟨[4, h, w], d⟩ = some y ∧ y.shape = [4, h, w] ∧
      (∀ a b : ℕ, y.data [3, a, b] = d [3, a, b]) ∧
      (∀ (i : Fin 3) (a b : ℕ), y.data [(i : ℕ), a, b] =
        ∑ k : Fin 3, (if inv then T.transpose else T) i k * d [(k : ℕ), a, b]) := by
  refine ⟨_, rfl, rfl, fun a b => rfl, fun i a b => ?_⟩
  show (if hi : (i : ℕ) < 3 then
      ∑ k : Fin 3, (if inv then T.transpose else T) ⟨(i : ℕ), hi⟩ k *
        d [(k : ℕ), a, b]
    else d [(i : ℕ), a, b]) = _
  rw [dif_pos i.isLt]

/-- C8: for positive dimensions every spectrum-scale entry is strictly
positive, and bounded above by `max h w * sqrt (h * w)` (so it is a genuine
finite real: the `1 / max(h, w)` floor under the frequency magnitude keeps
the division away from zero). -/
theorem spectrum_scale_positive (h w : ℕ) (hh : 0 < h) (hw : 0 < w)
    (i j : ℕ) :
    0 < (FFTImage.spectrum_scale h w).data [0, i, j, 0] ∧
    (FFTImage.spectrum_scale h w).data [0, i, j, 0] ≤
      max (h : ℝ) w * Real.sqrt ((h : ℝ) * w) := by
  have hdata : (FFTImage.spectrum_scale h w).data [0, i, j, 0] =
      1 / max ((FFTImage.rfft2d_freqs h w).data [i, j]) (1 / max (h : ℝ) w) *
        Real.sqrt ((h : ℝ) * w) := rfl
  have hM : (1 : ℝ) ≤ max (h : ℝ) w := by
    have : (1 : ℝ) ≤ (h : ℝ) := by exact_mod_cast hh
    exact le_trans this (le_max_left _ _)
  have hMpos : (0 : ℝ) < max (h : ℝ) w := lt_of_lt_of_le one_pos hM
  have hfloor : (0 : ℝ) < 1 / max (h : ℝ) w := by positivity
  have hden : 1 / max (h : ℝ) w ≤
      max ((FFTImage.rfft2d_freqs h w).data [i, j]) (1 / max (h : ℝ) w) :=
    le_max_right _ _
  have hdenpos : (0 : ℝ) <
      max ((FFTImage.rfft2d_freqs h w).data [i, j]) (1 / max (h : ℝ) w) :=
    lt_of_lt_of_le hfloor hden
  have hsqrt : (0 : ℝ) < Real.sqrt ((h : ℝ) * w) := by
    apply Real.sqrt_pos.mpr
    have h0 : (0 : ℝ) < (h : ℝ) := by exact_mod_cast hh
    have w0 : (0 : ℝ) < (w : ℝ) := by exact_mod_cast hw
    positivity
  rw [hdata]
  constructor
  · exact mul_pos (by positivity) hsqrt
  · have hinv : 1 / max ((FFTImage.rfft2d_freqs h w).data [i, j])
        (1 / max (h : ℝ) w) ≤ max (h : ℝ) w := by
      have := one_div_le_one_div_of_le hfloor hden
      rwa [one_div_one_div] at this
    exact mul_le_mul_of_nonneg_right hinv hsqrt.le

/-- Broadcasting two equal axis sizes keeps the size. -/
theorem bcDim_self (a : ℕ) : bcDim a a = some a := by simp [bcDim]

/-- Broadcasting against an axis of size 1 keeps the other size. -/
theorem bcDim_one_right (a : ℕ) : bcDim a 1 = some a := by
  unfold bcDim
  by_cases h : a = 1 <;> simp [h]

/-- An in-range index is unchanged by broadcast indexing. -/
theorem bcIndex_lt (dim i : ℕ) (h : i < dim) : bcIndex dim i = i := by
  unfold bcIndex
  split_ifs with hd
  · omega
  · rfl

/-- Evaluating `broadcastOp` on two rank-4 tensors with compatible axes: the result
shape and elementwise values. -/
theorem broadcastOp_four (op : ℝ → ℝ → ℝ)
    (a0 a1 a2 a3 b0 b1 b2 b3 c0 c1 c2 c3 : ℕ) (dx dy : List ℕ → ℝ)
    (h0 : bcDim a0 b0 = some c0) (h1 : bcDim a1 b1 = some c1)
    (h2 : bcDim a2 b2 = some c2) (h3 : bcDim a3 b3 = some c3) :
    broadcastOp op ⟨[a0, a1, a2, a3], dx⟩ ⟨[b0, b1, b2, b3], dy⟩ =
      some ⟨[c0, c1, c2, c3], fun idx =>
        match idx with
        | [i0, i1, i2, i3] =>
          op (dx [bcIndex a0 i0, bcIndex a1 i1, bcIndex a2 i2, bcIndex a3 i3])
             (dy [bcIndex b0 i0, bcIndex b1 i1, bcIndex b2 i2, bcIndex b3 i3])
        | _ => 0⟩ := by
  simp only [broadcastOp]
  rw [h0, h1, h2, h3]

/-- Witness for C8 at size `(2, 2)`, entry `(0, 0)`. -/
theorem spectrum_scale_positive_witness :
    0 < (FFTImage.spectrum_scale 2 2).data [0, 0, 0, 0] ∧
    (FFTImage.spectrum_scale 2 2).data [0, 0, 0, 0] ≤
      max (2 : ℝ) 2 * Real.sqrt ((2 : ℝ) * 2) :=
  spectrum_scale_positive 2 2 (by norm_num) (by norm_num) 0 0

/-- C3: `FFTImage.set_image` applies the forward real 2D FFT to the image,
divides the result elementwise by the stored spectrum scale, and stores the
quotient as the new latent coefficients — for every previous coefficient
state (`fc'`) and size the result is the same, i.e. the old state is
replaced, not accumulated with.  Stated for a spectrum scale whose shape is
broadcast-compatible with the FFT output. -/
theorem fftImage_set_image_replaces (c h w : ℕ) (d e : List ℕ → ℝ) :
    ∃ coeffs q : NTensor,
      torchRfft2 ⟨[c, h, w], d⟩ = some coeffs ∧
      q.shape = [c, h, w / 2 + 1, 2] ∧
      (∀ (ci : Fin c) (ky : Fin h) (kx : Fin (w / 2 + 1)) (r : Fin 2),
        q.data [(ci : ℕ), (ky : ℕ), (kx : ℕ), (r : ℕ)] =
          coeffs.data [(ci : ℕ), (ky : ℕ), (kx : ℕ), (r : ℕ)] /
            e [0, (ky : ℕ), (kx : ℕ), 0]) ∧
      (∀ (sz : ℕ × ℕ) (fc' : NTensor),
        FFTImage.set_image ⟨sz, fc', ⟨[1, h, w / 2 + 1, 1], e⟩⟩ ⟨[c, h, w], d⟩ =
          some ⟨sz, q, ⟨[1, h, w / 2 + 1, 1], e⟩⟩) := by
  obtain ⟨R, hR⟩ : ∃ t, torchRfft2 ⟨[c, h, w], d⟩ = some t := ⟨_, rfl⟩
  have hRsh : R.shape = [c, h, w / 2 + 1, 2] := by
    have hmap := congrArg (fun o => (Option.map NTensor.shape o).getD []) hR
    exact hmap.symm.trans rfl
  have key : ∀ (Rd : List ℕ → ℝ),
      ∃ q, broadcastOp (fun a b => a / b) ⟨[c, h, w / 2 + 1, 2], Rd⟩
          ⟨[1, h, w / 2 + 1, 1], e⟩ = some q ∧
        q.shape = [c, h, w / 2 + 1, 2] ∧
        ∀ (ci : Fin c) (ky : Fin h) (kx : Fin (w / 2 + 1)) (r : Fin 2),
          q.data [(ci : ℕ), (ky : ℕ), (kx : ℕ), (r : ℕ)] =
            Rd [(ci : ℕ), (ky : ℕ), (kx : ℕ), (r : ℕ)] /
              e [0, (ky : ℕ), (kx : ℕ), 0] := by
    intro Rd
    refine ⟨_, broadcastOp_four (fun a b => a / b) c h (w / 2 + 1) 2 1 h
      (w / 2 + 1) 1 c h (w / 2 + 1) 2 Rd e (bcDim_one_right c) (bcDim_self h)
      (bcDim_self (w / 2 + 1)) rfl, rfl, ?_⟩
    intro ci ky kx r
    dsimp only
    rw [bcIndex_lt c ci ci.isLt, bcIndex_lt h ky ky.isLt,
      bcIndex_lt (w / 2 + 1) kx kx.isLt, bcIndex_lt 2 r r.isLt]
    rfl
  obtain ⟨Rsh, Rd⟩ := R
  have hsh : Rsh = [c, h, w / 2 + 1, 2] := hRsh
  subst hsh
  obtain ⟨q, hq, hqsh, hqdata⟩ := key Rd
  refine ⟨_, q, hR, hqsh, hqdata, ?_⟩
  intro sz fc'
  simp only [FFTImage.set_image]
  rw [hR, Option.some_bind', hq, Option.map_some']

/-- The squared column sums of the raw KLT matrix. -/
theorem kltColumnNorm_vals :
    ToRGB.kltColumnNorm 0 = Real.sqrt (2134/10000) ∧
    ToRGB.kltColumnNorm 1 = Real.sqrt (162/10000) ∧
    ToRGB.kltColumnNorm 2 = Real.sqrt (38/10000) := by
  refine ⟨?_, ?_, ?_⟩
  · have hsum : ∑ i : Fin 3, ToRGB.kltRaw i 0 ^ 2 = 2134/10000 := by
      rw [Fin.sum_univ_three, show ToRGB.kltRaw 0 0 = 26/100 from rfl,
        show ToRGB.kltRaw 1 0 = 27/100 from rfl,
        show ToRGB.kltRaw 2 0 = 27/100 from rfl]
      norm_num
    unfold ToRGB.kltColumnNorm
    rw [hsum]
  · have hsum : ∑ i : Fin 3, ToRGB.kltRaw i 1 ^ 2 = 162/10000 := by
      rw [Fin.sum_univ_three, show ToRGB.kltRaw 0 1 = 9/100 from rfl,
        show ToRGB.kltRaw 1 1 = 0 from rfl,
        show ToRGB.kltRaw 2 1 = -9/100 from rfl]
      norm_num
    unfold ToRGB.kltColumnNorm
    rw [hsum]
  · have hsum : ∑ i : Fin 3, ToRGB.kltRaw i 2 ^ 2 = 38/10000 := by
      rw [Fin.sum_univ_three, show ToRGB.kltRaw 0 2 = 2/100 from rfl,
        show ToRGB.kltRaw 1 2 = -5/100 from rfl,
        show ToRGB.kltRaw 2 2 = 3/100 from rfl]
      norm_num
    unfold ToRGB.kltColumnNorm
    rw [hsum]

/-- The normalizer of the KLT matrix is the first column's norm. -/
theorem kltNorm_eq : ToRGB.kltNorm = Real.sqrt (2134/10000) := by
  obtain ⟨h0, h1, h2⟩ := kltColumnNorm_vals
  unfold ToRGB.kltNorm
  rw [h0, h1, h2,
    max_eq_left (Real.sqrt_le_sqrt (by norm_num : (38:ℝ)/10000 ≤ 162/10000)),
    max_eq_left (Real.sqrt_le_sqrt (by norm_num : (162:ℝ)/10000 ≤ 2134/10000))]

/-- The squared KLT normalizer. -/
theorem kltNorm_sq : ToRGB.kltNorm ^ 2 = 2134/10000 := by
  rw [kltNorm_eq]
  exact Real.sq_sqrt (by norm_num)

/-- The KLT normalizer is positive. -/
theorem kltNorm_pos : 0 < ToRGB.kltNorm := by
  rw [kltNorm_eq]
  exact Real.sqrt_pos.mpr (by norm_num)

/-- Column dot products of the normalized KLT matrix reduce to rational
column dot products of the raw matrix over the squared normalizer. -/
theorem klt_gram_entry (i j : Fin 3) :
    (∑ k : Fin 3, ToRGB.klt_transform k i * ToRGB.klt_transform k j) =
      (∑ k : Fin 3, ToRGB.kltRaw k i * ToRGB.kltRaw k j) / (2134/10000) := by
  have step : ∀ k : Fin 3, ToRGB.klt_transform k i * ToRGB.klt_transform k j =
      (ToRGB.kltRaw k i * ToRGB.kltRaw k j) / (2134/10000) := by
    intro k
    simp only [ToRGB.klt_transform]
    rw [div_mul_div_comm, ← sq, kltNorm_sq]
  rw [Finset.sum_congr rfl fun k _ => step k, ← Finset.sum_div]

/-- Gram coefficients of the KLT basis (the entries of `transpose T * T`). -/
theorem klt_coeffs :
    (∑ k : Fin 3, ToRGB.klt_transform k 0 * ToRGB.klt_transform k 0) = 1 ∧
    (∑ k : Fin 3, ToRGB.klt_transform k 0 * ToRGB.klt_transform k 1) = -9/2134 ∧
    (∑ k : Fin 3, ToRGB.klt_transform k 0 * ToRGB.klt_transform k 2) = -2/2134 ∧
    (∑ k : Fin 3, ToRGB.klt_transform k 1 * ToRGB.klt_transform k 0) = -9/2134 ∧
    (∑ k : Fin 3, ToRGB.klt_transform k 1 * ToRGB.klt_transform k 1) = 162/2134 ∧
    (∑ k : Fin 3, ToRGB.klt_transform k 1 * ToRGB.klt_transform k 2) = -9/2134 ∧
    (∑ k : Fin 3, ToRGB.klt_transform k 2 * ToRGB.klt_transform k 0) = -2/2134 ∧
    (∑ k : Fin 3, ToRGB.klt_transform k 2 * ToRGB.klt_transform k 1) = -9/2134 ∧
    (∑ k : Fin 3, ToRGB.klt_transform k 2 * ToRGB.klt_transform k 2) = 38/2134 := by
  refine ⟨?_, ?_, ?_, ?_, ?_, ?_, ?_, ?_, ?_⟩ <;>
    rw [klt_gram_entry, Fin.sum_univ_three] <;>
    simp only [show ToRGB.kltRaw 0 0 = 26/100 from rfl,
      show ToRGB.kltRaw 1 0 = 27/100 from rfl,
      show ToRGB.kltRaw 2 0 = 27/100 from rfl,
      show ToRGB.kltRaw 0 1 = 9/100 from rfl,
      show ToRGB.kltRaw 1 1 = 0 from rfl,
      show ToRGB.kltRaw 2 1 = -9/100 from rfl,
      show ToRGB.kltRaw 0 2 = 2/100 from rfl,
      show ToRGB.kltRaw 1 2 = -5/100 from rfl,
      show ToRGB.kltRaw 2 2 = 3/100 from rfl] <;>
    norm_num

/-- Gram coefficients of the I1I2I3 basis. -/
theorem i1i2i3_coeffs :
    (∑ k : Fin 3, ToRGB.i1i2i3_transform k 0 * ToRGB.i1i2i3_transform k 0) = 61/144 ∧
    (∑ k : Fin 3, ToRGB.i1i2i3_transform k 0 * ToRGB.i1i2i3_transform k 1) = -1/72 ∧
    (∑ k : Fin 3, ToRGB.i1i2i3_transform k 0 * ToRGB.i1i2i3_transform k 2) = -11/144 ∧
    (∑ k : Fin 3, ToRGB.i1i2i3_transform k 1 * ToRGB.i1i2i3_transform k 0) = -1/72 ∧
    (∑ k : Fin 3, ToRGB.i1i2i3_transform k 1 * ToRGB.i1i2i3_transform k 1) = 13/36 ∧
    (∑ k : Fin 3, ToRGB.i1i2i3_transform k 1 * ToRGB.i1i2i3_transform k 2) = -1/72 ∧
    (∑ k : Fin 3, ToRGB.i1i2i3_transform k 2 * ToRGB.i1i2i3_transform k 0) = -11/144 ∧
    (∑ k : Fin 3, ToRGB.i1i2i3_transform k 2 * ToRGB.i1i2i3_transform k 1) = -1/72 ∧
    (∑ k : Fin 3, ToRGB.i1i2i3_transform k 2 * ToRGB.i1i2i3_transform k 2) = 61/144 := by
  refine ⟨?_, ?_, ?_, ?_, ?_, ?_, ?_, ?_, ?_⟩ <;>
    rw [Fin.sum_univ_three] <;>
    simp only [show ToRGB.i1i2i3_transform 0 0 = 1/3 from rfl,
      show ToRGB.i1i2i3_transform 1 0 = 1/2 from rfl,
      show ToRGB.i1i2i3_transform 2 0 = -1/4 from rfl,
      show ToRGB.i1i2i3_transform 0 1 = 1/3 from rfl,
      show ToRGB.i1i2i3_transform 1 1 = 0 from rfl,
      show ToRGB.i1i2i3_transform 2 1 = 1/2 from rfl,
      show ToRGB.i1i2i3_transform 0 2 = 1/3 from rfl,
      show ToRGB.i1i2i3_transform 1 2 = -1/2 from rfl,
      show ToRGB.i1i2i3_transform 2 2 = -1/4 from rfl] <;>
    norm_num

/-- Applying `ToRGB.forward` on a plain 3-channel tensor: it succeeds, keeps the
shape, and each output channel is the matrix (or transposed-matrix) row
applied across the input channels. -/
theorem toRGB_forward3_data (T : Matrix (Fin 3) (Fin 3) ℝ) (inv : Bool)
    (h w : ℕ) (d : List ℕ → ℝ) :
    ∃ y, ToRGB.forward T inv ⟨[3, h, w], d⟩ = some y ∧ y.shape = [3, h, w] ∧
      ∀ (i : Fin 3) (a b : ℕ), y.data [(i : ℕ), a, b] =
        ∑ k : Fin 3, (if inv then T.transpose else T) i k * d [(k : ℕ), a, b] := by
  refine ⟨_, rfl, rfl, fun i a b => ?_⟩
  show (if hi : (i : ℕ) < 3 then
      ∑ k : Fin 3, (if inv then T.transpose else T) ⟨(i : ℕ), hi⟩ k *
        d [(k : ℕ), a, b]
    else d [(i : ℕ), a, b]) = _
  rw [dif_pos i.isLt]

/-- Exchanging the two sums of a transposed-then-direct application gives
the Gram coefficients. -/
theorem roundtrip_coeff (T : Matrix (Fin 3) (Fin 3) ℝ) (v : Fin 3 → ℝ)
    (i : Fin 3) :
    ∑ k : Fin 3, T.transpose i k * ∑ j : Fin 3, T k j * v j =
      ∑ j : Fin 3, (∑ k : Fin 3, T k i * T k j) * v j := by
  simp only [Matrix.transpose_apply, Finset.mul_sum]
  rw [Finset.sum_comm]
  simp only [Finset.sum_mul]
  refine Finset.sum_congr rfl fun j _ => Finset.sum_congr rfl fun k _ => by ring

/-- Applying `ToRGB.forward` and then its inverse mode computes, per
channel, the Gram-coefficient combination of the original channels. -/
theorem toRGB_roundtrip_data (T : Matrix (Fin 3) (Fin 3) ℝ) (h w : ℕ)
    (d : List ℕ → ℝ) :
    ∃ y z, ToRGB.forward T false ⟨[3, h, w], d⟩ = some y ∧
      ToRGB.forward T true y = some z ∧
      ∀ (i : Fin 3) (a b : ℕ), z.data [(i : ℕ), a, b] =
        ∑ j : Fin 3, (∑ k : Fin 3, T k i * T k j) * d [(j : ℕ), a, b] := by
  obtain ⟨y, hy, hysh, hydata⟩ := toRGB_forward3_data T false h w d
  obtain ⟨ysh, yd⟩ := y
  have hysh' : ysh = [3, h, w] := hysh
  subst hysh'
  obtain ⟨z, hz, hzsh, hzdata⟩ := toRGB_forward3_data T true h w yd
  refine ⟨_, z, hy, hz, ?_⟩
  intro i a b
  rw [hzdata i a b]
  have hyd : ∀ (k : Fin 3) , yd [(k : ℕ), a, b] =
      ∑ j : Fin 3, T k j * d [(j : ℕ), a, b] := fun k => hydata k a b
  have hsum : (∑ k : Fin 3, T.transpose i k * yd [(k : ℕ), a, b]) =
      ∑ j : Fin 3, (∑ k : Fin 3, T k i * T k j) * d [(j : ℕ), a, b] := by
    rw [Finset.sum_congr rfl fun k _ => by rw [hyd k]]
    exact roundtrip_coeff T (fun j => d [(j : ℕ), a, b]) i
  exact hsum

/-- C1: the `forward`-then-inverse round trip of `ColorDecorrelation`.
For a truly orthonormal basis (`transpose T * T = 1`) the round trip is
exact; for the two presets the round-trip error per channel is bounded by a
constant determined by the basis Gram matrix's deviation from the identity:
`2107/2134` times the channel bound for "klt" and `2/3` for "i1i2i3". -/
theorem toRGB_roundtrip_tolerance :
    (∀ (T : Matrix (Fin 3) (Fin 3) ℝ), T.transpose * T = 1 →
      ∀ (h w : ℕ) (d : List ℕ → ℝ), ∃ y z,
        ToRGB.forward T false ⟨[3, h, w], d⟩ = some y ∧
        ToRGB.forward T true y = some z ∧
        ∀ (i : Fin 3) (a b : ℕ),
          z.data [(i : ℕ), a, b] = d [(i : ℕ), a, b]) ∧
    (∀ (h w : ℕ) (d : List ℕ → ℝ) (B : ℝ),
      (∀ (j : Fin 3) (a b : ℕ), |d [(j : ℕ), a, b]| ≤ B) → ∃ y z,
        ToRGB.forward ToRGB.klt_transform false ⟨[3, h, w], d⟩ = some y ∧
        ToRGB.forward ToRGB.klt_transform true y = some z ∧
        ∀ (i : Fin 3) (a b : ℕ),
          |z.data [(i : ℕ), a, b] - d [(i : ℕ), a, b]| ≤ 2107/2134 * B) ∧
    (∀ (h w : ℕ) (d : List ℕ → ℝ) (B : ℝ),
      (∀ (j : Fin 3) (a b : ℕ), |d [(j : ℕ), a, b]| ≤ B) → ∃ y z,
        ToRGB.forward ToRGB.i1i2i3_transform false ⟨[3, h, w], d⟩ = some y ∧
        ToRGB.forward ToRGB.i1i2i3_transform true y = some z ∧
        ∀ (i : Fin 3) (a b : ℕ),
          |z.data [(i : ℕ), a, b] - d [(i : ℕ), a, b]| ≤ 2/3 * B) := by
  refine ⟨?_, ?_, ?_⟩
  · intro T hT h w d
    obtain ⟨y, z, hy, hz, hdata⟩ := toRGB_roundtrip_data T h w d
    refine ⟨y, z, hy, hz, ?_⟩
    intro i a b
    rw [hdata i a b]
    have hg : ∀ j : Fin 3, (∑ k : Fin 3, T k i * T k j) =
        (1 : Matrix (Fin 3) (Fin 3) ℝ) i j := by
      intro j
      rw [← hT, Matrix.mul_apply]
      simp [Matrix.transpose_apply]
    rw [Finset.sum_congr rfl fun j _ => by rw [hg j]]
    simp [Matrix.one_apply]
  · intro h w d B hB
    obtain ⟨y, z, hy, hz, hdata⟩ :=
      toRGB_roundtrip_data ToRGB.klt_transform h w d
    refine ⟨y, z, hy, hz, ?_⟩
    intro i a b
    rw [hdata i a b, Fin.sum_univ_three]
    obtain ⟨c00, c01, c02, c10, c11, c12, c20, c21, c22⟩ := klt_coeffs
    have h0 := hB 0 a b
    have h1 := hB 1 a b
    have h2 := hB 2 a b
    have hBnn : 0 ≤ B := le_trans (abs_nonneg _) h0
    rw [abs_le] at h0 h1 h2
    obtain ⟨h0l, h0r⟩ := h0
    obtain ⟨h1l, h1r⟩ := h1
    obtain ⟨h2l, h2r⟩ := h2
    fin_cases i
    · simp only [Fin.isValue, Fin.zero_eta, Fin.mk_one]
      rw [c00, c01, c02]
      simp only [show ((0 : Fin 3) : ℕ) = 0 from rfl,
        show ((1 : Fin 3) : ℕ) = 1 from rfl,
        show ((2 : Fin 3) : ℕ) = 2 from rfl] at h0l h0r h1l h1r h2l h2r ⊢
      rw [abs_le]
      constructor <;> linarith
    · simp only [Fin.isValue, Fin.zero_eta, Fin.mk_one]
      rw [c10, c11, c12]
      simp only [show ((0 : Fin 3) : ℕ) = 0 from rfl,
        show ((1 : Fin 3) : ℕ) = 1 from rfl,
        show ((2 : Fin 3) : ℕ) = 2 from rfl] at h0l h0r h1l h1r h2l h2r ⊢
      rw [abs_le]
      constructor <;> linarith
    · simp only [Fin.isValue, Fin.zero_eta, Fin.mk_one,
        show (⟨2, by norm_num⟩ : Fin 3) = 2 from rfl]
      rw [c20, c21, c22]
      simp only [show ((0 : Fin 3) : ℕ) = 0 from rfl,
        show ((1 : Fin 3) : ℕ) = 1 from rfl,
        show ((2 : Fin 3) : ℕ) = 2 from rfl] at h0l h0r h1l h1r h2l h2r ⊢
      rw [abs_le]
      constructor <;> linarith
  · intro h w d B hB
    obtain ⟨y, z, hy, hz, hdata⟩ :=
      toRGB_roundtrip_data ToRGB.i1i2i3_transform h w d
    refine ⟨y, z, hy, hz, ?_⟩
    intro i a b
    rw [hdata i a b, Fin.sum_univ_three]
    obtain ⟨c00, c01, c02, c10, c11, c12, c20, c21, c22⟩ := i1i2i3_coeffs
    have h0 := hB 0 a b
    have h1 := hB 1 a b
    have h2 := hB 2 a b
    have hBnn : 0 ≤ B := le_trans (abs_nonneg _) h0
    rw [abs_le] at h0 h1 h2
    obtain ⟨h0l, h0r⟩ := h0
    obtain ⟨h1l, h1r⟩ := h1
    obtain ⟨h2l, h2r⟩ := h2
    fin_cases i
    · simp only [Fin.isValue, Fin.zero_eta, Fin.mk_one]
      rw [c00, c01, c02]
      simp only [show ((0 : Fin 3) : ℕ) = 0 from rfl,
        show ((1 : Fin 3) : ℕ) = 1 from rfl,
        show ((2 : Fin 3) : ℕ) = 2 from rfl] at h0l h0r h1l h1r h2l h2r ⊢
      rw [abs_le]
      constructor <;> linarith
    · simp only [Fin.isValue, Fin.zero_eta, Fin.mk_one]
      rw [c10, c11, c12]
      simp only [show ((0 : Fin 3) : ℕ) = 0 from rfl,
        show ((1 : Fin 3) : ℕ) = 1 from rfl,
        show ((2 : Fin 3) : ℕ) = 2 from rfl] at h0l h0r h1l h1r h2l h2r ⊢
      rw [abs_le]
      constructor <;> linarith
    · simp only [Fin.isValue, Fin.zero_eta, Fin.mk_one,
        show (⟨2, by norm_num⟩ : Fin 3) = 2 from rfl]
      rw [c20, c21, c22]
      simp only [show ((0 : Fin 3) : ℕ) = 0 from rfl,
        show ((1 : Fin 3) : ℕ) = 1 from rfl,
        show ((2 : Fin 3) : ℕ) = 2 from rfl] at h0l h0r h1l h1r h2l h2r ⊢
      rw [abs_le]
      constructor <;> linarith

/-- Witness for C1: the identity matrix is orthonormal and round-trips a
constant-half image exactly; the two presets round-trip it within their
bounds. -/
theorem toRGB_roundtrip_tolerance_witness :
    (∃ y z, ToRGB.forward 1 false ⟨[3, 1, 1], fun _ => (1:ℝ)/2⟩ = some y ∧
      ToRGB.forward 1 true y = some z ∧
      ∀ (i : Fin 3) (a b : ℕ), z.data [(i : ℕ), a, b] = 1/2) ∧
    (∃ y z,
      ToRGB.forward ToRGB.klt_transform false ⟨[3, 1, 1], fun _ => (1:ℝ)/2⟩ =
        some y ∧
      ToRGB.forward ToRGB.klt_transform true y = some z ∧
      ∀ (i : Fin 3) (a b : ℕ),
        |z.data [(i : ℕ), a, b] - 1/2| ≤ 2107/2134 * (1/2)) ∧
    (∃ y z,
      ToRGB.forward ToRGB.i1i2i3_transform false
        ⟨[3, 1, 1], fun _ => (1:ℝ)/2⟩ = some y ∧
      ToRGB.forward ToRGB.i1i2i3_transform true y = some z ∧
      ∀ (i : Fin 3) (a b : ℕ),
        |z.data [(i : ℕ), a, b] - 1/2| ≤ 2/3 * (1/2)) :=
  ⟨toRGB_roundtrip_tolerance.1 1 (by simp) 1 1 (fun _ => (1:ℝ)/2),
   toRGB_roundtrip_tolerance.2.1 1 1 (fun _ => (1:ℝ)/2) (1/2)
     (fun j a b => by rw [abs_of_nonneg (by norm_num : (0:ℝ) ≤ 1/2)]),
   toRGB_roundtrip_tolerance.2.2 1 1 (fun _ => (1:ℝ)/2) (1/2)
     (fun j a b => by rw [abs_of_nonneg (by norm_num : (0:ℝ) ≤ 1/2)])⟩
